import Mathlib

/-!
# Verification of the Resume Screener scoring engine

Shallow embedding, in Lean 4, of the scoring engine of the
AI-Resume-Screener repository (`screener/scoring.py`, `screener/nlp.py`),
together with proofs and refutations of the frozen specification claims.

Modelling conventions:
* Python strings are Lean `String`s / `List Char`; Python `str.lower`
  is modelled on the ASCII range (`Char.toLower`), matching the
  repository's data (skill names and resume text are ASCII).
* Python floats are modelled as exact real numbers (`ℝ`); quantities
  that are exact rationals in the source (set cardinality ratios) are
  modelled as `ℚ`.  `round(x, 2)` is modelled as exact rounding of the
  real value to two decimals (`round2` below).
* Python dicts whose key set is data-dependent (the `skill_details`
  dict, which has a `"found"` key on one branch only) are modelled as
  association lists, so that key presence is observable.  Dicts with a
  fixed key set are modelled as structures.
* Fallible code (the `try/except` around the TF-IDF vectorizer) is
  modelled by an explicit test of the failure condition (empty
  vocabulary), returning the fallback value on failure.
-/

/-- `SkillExtractionResult`: the dictionary produced by
`SkillExtractor.extract_skills` (`nlp.py`), with keys `by_category`
(mapping category → list of found skills, insertion-ordered),
`frequencies` (skill → occurrence count) and `total_unique`. -/
structure ExtractResult where
  by_category : List (String × List String)
  frequencies : List (String × Nat)
  total_unique : Nat
deriving DecidableEq

/-- One value of the `skill_details` dict in
`ResumeMatcher.calculate_skill_match_score` (`scoring.py`): either a
list of skill names or a count. -/
inductive DVal where
  | strs : List String → DVal
  | num : Nat → DVal
deriving DecidableEq

/-- Flattening of a `by_category` mapping into a flat set of skill
names, as done by the two `for category, skills in … .items():
flat.update(skills)` loops of `calculate_skill_match_score`
(`scoring.py` lines 60–69). -/
def flatSkills (byCat : List (String × List String)) : Finset String :=
  byCat.foldl (fun acc p => acc ∪ p.2.toFinset) ∅

/-- `sorted(list(s))` on a Python set of strings: the elements in
increasing lexicographic order. -/
def sortedSkills (s : Finset String) : List String :=
  s.sort (· ≤ ·)

/-- `ResumeMatcher.calculate_skill_match_score` (`scoring.py` lines
49–87).  Returns the pair `(score, details)`; `details` is modelled as
an association list because the two return branches produce different
key sets.  The dead `if jd_flat else 0.0` guard of line 80 is inside
the `jd_flat` non-empty branch and is therefore not modelled. -/
def calculate_skill_match_score (resume_skills jd_skills : ExtractResult) :
    ℚ × List (String × DVal) :=
  let resume_flat := flatSkills resume_skills.by_category
  let jd_flat := flatSkills jd_skills.by_category
  if jd_flat = ∅ then
    (1, [("matched", DVal.strs []), ("missing", DVal.strs []),
         ("required", DVal.num 0)])
  else
    let matched := resume_flat ∩ jd_flat
    let missing := jd_flat \ resume_flat
    let score : ℚ := (matched.card : ℚ) / (jd_flat.card : ℚ)
    (score,
     [("matched", DVal.strs (sortedSkills matched)),
      ("missing", DVal.strs (sortedSkills missing)),
      ("required", DVal.num jd_flat.card),
      ("found", DVal.num resume_flat.card)])

/-- `ResumeMatcher.generate_composite_score` (`scoring.py` lines
89–110).  The `weights` dict (keys `"similarity"`, `"skills"`) is the
pair `(w.1, w.2)`; `None` selects the default `{0.5, 0.5}`. -/
noncomputable def generate_composite_score
    (similarity_score skill_match_score : ℝ) (weights : Option (ℝ × ℝ)) : ℝ :=
  let w := weights.getD (1/2, 1/2)
  (similarity_score * w.1 + skill_match_score * w.2) * 100

/-- `ResumeMatcher._score_to_rating` (`scoring.py` lines 207–218). -/
noncomputable def score_to_rating (score : ℝ) : String :=
  if 80 ≤ score then "⭐⭐⭐⭐⭐"
  else if 60 ≤ score then "⭐⭐⭐⭐"
  else if 40 ≤ score then "⭐⭐⭐"
  else if 20 ≤ score then "⭐⭐"
  else "⭐"

/-- Python's `round(x, 2)`, modelled as exact half-up rounding of the
real value to two decimals.  (CPython uses round-half-even on binary
floats; the two agree except on exact `0.005` ties, which none of the
checked claims involve.) -/
noncomputable def round2 (x : ℝ) : ℝ := ((round (x * 100) : ℤ) : ℝ) / 100

/-- Monotonicity of `round2`, inherited from `Int.floor_mono` via
`round_eq`. -/
theorem round2_mono {x y : ℝ} (h : x ≤ y) : round2 x ≤ round2 y := by
  unfold round2
  have hr : round (x * 100) ≤ round (y * 100) := by
    rw [round_eq, round_eq]
    exact Int.floor_mono (by linarith)
  have : ((round (x * 100) : ℤ) : ℝ) ≤ ((round (y * 100) : ℤ) : ℝ) := by
    exact_mod_cast hr
  linarith

/-- C2 (counterexample): with an empty target skill set, the
`skill_details` dict returned by `calculate_skill_match_score` has no
`"found"` key, so the record does not contain all four fields. -/
theorem C2_counterexample :
    List.lookup "found"
      (calculate_skill_match_score
        ⟨[("programming_languages", ["python"])], [("python", 2)], 1⟩
        ⟨[], [], 0⟩).2 = none := by
  rfl

/-- C2 (amended): the `skill_details` record contains the three fields
`matched`, `missing`, `required` when the target's flat skill set is
empty, and exactly the four fields `matched`, `missing`, `required`,
`found` otherwise. -/
theorem C2_details_fields (rs js : ExtractResult) :
    ((calculate_skill_match_score rs js).2.map Prod.fst =
        ["matched", "missing", "required"] ∧ flatSkills js.by_category = ∅) ∨
    ((calculate_skill_match_score rs js).2.map Prod.fst =
        ["matched", "missing", "required", "found"] ∧
      flatSkills js.by_category ≠ ∅) := by
  by_cases h : flatSkills js.by_category = ∅
  · left
    refine ⟨?_, h⟩
    simp only [calculate_skill_match_score, if_pos h]
    rfl
  · right
    refine ⟨?_, h⟩
    simp only [calculate_skill_match_score, if_neg h]
    rfl

/-- C3: with a non-empty target flat set, `calculate_skill_match_score`
returns the intersection/difference sets (lexicographically sorted),
`score = |matched| / |target_flat|`, `required = |target_flat|`,
`found = |candidate_flat|`; the matched and missing sets partition the
target flat set. -/
theorem C3_skill_match_formula (rs js : ExtractResult)
    (h : flatSkills js.by_category ≠ ∅) :
    calculate_skill_match_score rs js =
      (((flatSkills rs.by_category ∩ flatSkills js.by_category).card : ℚ) /
          ((flatSkills js.by_category).card : ℚ),
       [("matched", DVal.strs (sortedSkills
            (flatSkills rs.by_category ∩ flatSkills js.by_category))),
        ("missing", DVal.strs (sortedSkills
            (flatSkills js.by_category \ flatSkills rs.by_category))),
        ("required", DVal.num (flatSkills js.by_category).card),
        ("found", DVal.num (flatSkills rs.by_category).card)]) ∧
    (flatSkills rs.by_category ∩ flatSkills js.by_category) ∪
        (flatSkills js.by_category \ flatSkills rs.by_category) =
      flatSkills js.by_category ∧
    (flatSkills rs.by_category ∩ flatSkills js.by_category) ∩
        (flatSkills js.by_category \ flatSkills rs.by_category) = ∅ := by
  refine ⟨?_, ?_, ?_⟩
  · simp only [calculate_skill_match_score, if_neg h]
  · ext x
    simp only [Finset.mem_union, Finset.mem_inter, Finset.mem_sdiff]
    tauto
  · ext x
    simp only [Finset.mem_inter, Finset.mem_sdiff, Finset.not_mem_empty,
      iff_false]
    tauto

/-- Witness for C3 at the spec's scenario: candidate `{python, django}`,
target `{python, java}`. -/
theorem C3_skill_match_formula_witness :
    flatSkills [("programming_languages", ["python", "java"])] ≠ ∅ ∧
    calculate_skill_match_score
        ⟨[("programming_languages", ["python"]),
          ("web_frameworks", ["django"])], [("python", 1), ("django", 1)], 2⟩
        ⟨[("programming_languages", ["python", "java"])],
          [("python", 1), ("java", 1)], 2⟩ =
      (((flatSkills [("programming_languages", ["python"]),
            ("web_frameworks", ["django"])] ∩
          flatSkills [("programming_languages", ["python", "java"])]).card : ℚ) /
          ((flatSkills [("programming_languages", ["python", "java"])]).card : ℚ),
       [("matched", DVal.strs (sortedSkills
            (flatSkills [("programming_languages", ["python"]),
                ("web_frameworks", ["django"])] ∩
              flatSkills [("programming_languages", ["python", "java"])]))),
        ("missing", DVal.strs (sortedSkills
            (flatSkills [("programming_languages", ["python", "java"])] \
              flatSkills [("programming_languages", ["python"]),
                ("web_frameworks", ["django"])]))),
        ("required", DVal.num
          (flatSkills [("programming_languages", ["python", "java"])]).card),
        ("found", DVal.num
          (flatSkills [("programming_languages", ["python"]),
              ("web_frameworks", ["django"])]).card)]) := by
  refine ⟨by decide, ?_⟩
  exact (C3_skill_match_formula
    ⟨[("programming_languages", ["python"]),
      ("web_frameworks", ["django"])], [("python", 1), ("django", 1)], 2⟩
    ⟨[("programming_languages", ["python", "java"])],
      [("python", 1), ("java", 1)], 2⟩ (by decide)).1

/-- C4: when the target's flat skill set is empty,
`calculate_skill_match_score` returns score `1.0`, empty matched and
missing lists and `required = 0`, for every candidate input. -/
theorem C4_empty_target (rs js : ExtractResult)
    (h : flatSkills js.by_category = ∅) :
    calculate_skill_match_score rs js =
      (1, [("matched", DVal.strs []), ("missing", DVal.strs []),
           ("required", DVal.num 0)]) := by
  simp only [calculate_skill_match_score, if_pos h]

/-- Witness for C4: an empty target (a category with no skills) against
a candidate that does have skills. -/
theorem C4_empty_target_witness :
    flatSkills [("cloud", [])] = ∅ ∧
    calculate_skill_match_score
        ⟨[("cloud", ["aws", "docker"])], [("aws", 1), ("docker", 3)], 2⟩
        ⟨[("cloud", [])], [], 0⟩ =
      (1, [("matched", DVal.strs []), ("missing", DVal.strs []),
           ("required", DVal.num 0)]) := by
  refine ⟨by decide, ?_⟩
  exact C4_empty_target
    ⟨[("cloud", ["aws", "docker"])], [("aws", 1), ("docker", 3)], 2⟩
    ⟨[("cloud", [])], [], 0⟩ (by decide)

/-- C5: the rating tier is selected by closed lower bounds evaluated
top-down (`≥80`, `≥60`, `≥40`, `≥20`, else), and in particular a
composite of exactly 80 gets the 5-star tier while 79.999 gets the
4-star tier. -/
theorem C5_rating_tiers (s : ℝ) :
    (80 ≤ s → score_to_rating s = "⭐⭐⭐⭐⭐") ∧
    (60 ≤ s → s < 80 → score_to_rating s = "⭐⭐⭐⭐") ∧
    (40 ≤ s → s < 60 → score_to_rating s = "⭐⭐⭐") ∧
    (20 ≤ s → s < 40 → score_to_rating s = "⭐⭐") ∧
    (s < 20 → score_to_rating s = "⭐") ∧
    score_to_rating (80 : ℝ) = "⭐⭐⭐⭐⭐" ∧
    score_to_rating (79.999 : ℝ) = "⭐⭐⭐⭐" := by
  refine ⟨?_, ?_, ?_, ?_, ?_, ?_, ?_⟩
  · intro h1
    rw [score_to_rating, if_pos h1]
  · intro h1 h2
    rw [score_to_rating, if_neg (by linarith), if_pos h1]
  · intro h1 h2
    rw [score_to_rating, if_neg (by linarith), if_neg (by linarith), if_pos h1]
  · intro h1 h2
    rw [score_to_rating, if_neg (by linarith), if_neg (by linarith),
      if_neg (by linarith), if_pos h1]
  · intro h1
    rw [score_to_rating, if_neg (by linarith), if_neg (by linarith),
      if_neg (by linarith), if_neg (by linarith)]
  · rw [score_to_rating, if_pos (by norm_num)]
  · rw [score_to_rating, if_neg (by norm_num), if_pos (by norm_num)]

/-- Witness for C5 at score 45 (3-star band). -/
theorem C5_rating_tiers_witness :
    (40 : ℝ) ≤ 45 ∧ (45 : ℝ) < 60 ∧ score_to_rating (45 : ℝ) = "⭐⭐⭐" := by
  exact ⟨by norm_num, by norm_num,
    (C5_rating_tiers 45).2.2.1 (by norm_num) (by norm_num)⟩

/-- C6: for fixed non-negative weights the composite score, and hence
the rounded `final_score`, is monotone non-decreasing in the similarity
and skill-match arguments jointly; `None` weights are the default
50/50 split. -/
theorem C6_composite_monotone (ws wk s s' k k' : ℝ)
    (hws : 0 ≤ ws) (hwk : 0 ≤ wk) (hs : s ≤ s') (hk : k ≤ k') :
    generate_composite_score s k (some (ws, wk)) ≤
        generate_composite_score s' k' (some (ws, wk)) ∧
    round2 (generate_composite_score s k (some (ws, wk))) ≤
        round2 (generate_composite_score s' k' (some (ws, wk))) ∧
    generate_composite_score s k none =
      generate_composite_score s k (some (1/2, 1/2)) := by
  have hmono : generate_composite_score s k (some (ws, wk)) ≤
      generate_composite_score s' k' (some (ws, wk)) := by
    simp only [generate_composite_score, Option.getD_some]
    have h1 : s * ws ≤ s' * ws := mul_le_mul_of_nonneg_right hs hws
    have h2 : k * wk ≤ k' * wk := mul_le_mul_of_nonneg_right hk hwk
    nlinarith
  refine ⟨hmono, round2_mono hmono, ?_⟩
  simp only [generate_composite_score, Option.getD_some, Option.getD_none]

/-- Witness for C6 with weights (0.5, 0.5), similarity 0.2 ≤ 0.4,
skill match 0.1 ≤ 0.9. -/
theorem C6_composite_monotone_witness :
    (0 : ℝ) ≤ 0.5 ∧ (0.2 : ℝ) ≤ 0.4 ∧ (0.1 : ℝ) ≤ 0.9 ∧
    generate_composite_score 0.2 0.1 (some (0.5, 0.5)) ≤
      generate_composite_score 0.4 0.9 (some (0.5, 0.5)) := by
  refine ⟨by norm_num, by norm_num, by norm_num, ?_⟩
  exact (C6_composite_monotone 0.5 0.5 0.2 0.4 0.1 0.9 (by norm_num)
    (by norm_num) (by norm_num) (by norm_num)).1

/-- Maximal runs of consecutive characters satisfying `p`, in order,
with the separating characters dropped.  Used for the regex-style
tokenizers of the similarity scorer (`\w\w+` word runs) and of the
text normalizer (`\S+` non-space runs). -/
def chunksP (p : Char → Bool) : List Char → List (List Char)
  | [] => []
  | c :: cs =>
    if p c then
      if cs.head?.any p then
        (c :: (chunksP p cs).headD []) :: (chunksP p cs).tail
      else [c] :: chunksP p cs
    else chunksP p cs

/-- Unfolding equation of `chunksP` at a cons cell. -/
theorem chunksP_cons (p : Char → Bool) (c : Char) (cs : List Char) :
    chunksP p (c :: cs) =
      if p c then
        if cs.head?.any p then
          (c :: (chunksP p cs).headD []) :: (chunksP p cs).tail
        else [c] :: chunksP p cs
      else chunksP p cs := rfl

/-- Characterization of `chunksP` on a cons cell whose head satisfies
`p`: the first run is the maximal `p`-prefix. -/
theorem chunksP_cons_pos (p : Char → Bool) :
    ∀ (cs : List Char) (c : Char), p c = true →
      chunksP p (c :: cs) = (c :: cs.takeWhile p) :: chunksP p (cs.dropWhile p)
  | [], c, hp => by simp [chunksP, hp]
  | d :: ds, c, hp => by
    cases hd : p d with
    | true =>
      have ih := chunksP_cons_pos p ds d hd
      rw [chunksP_cons, if_pos hp, if_pos (by simp [hd]), ih]
      simp [List.takeWhile_cons, List.dropWhile_cons, hd]
    | false =>
      rw [chunksP_cons, if_pos hp, if_neg (by simp [hd])]
      simp [List.takeWhile_cons, List.dropWhile_cons, hd]

/-- Characterization of `chunksP` on a cons cell whose head does not
satisfy `p`. -/
theorem chunksP_cons_neg (p : Char → Bool) (cs : List Char) (c : Char)
    (hp : p c = false) : chunksP p (c :: cs) = chunksP p cs := by
  simp [chunksP_cons, hp]

/-- A word character in the sense of the regex `\w` (ASCII range):
letter, digit or underscore.  Used both by the sklearn token pattern
`\b\w\w+\b` and by the `\b` boundary semantics of skill matching. -/
def isWordChar (c : Char) : Bool := c.isAlphanum || c == '_'

/-- The token list produced by `TfidfVectorizer`'s analyzer on one
document (`scoring.py` lines 19–24, `lowercase=True`, default
`token_pattern r"(?u)\b\w\w+\b"`): lower-case the text, then take the
maximal word-character runs of length at least 2. -/
def sklearnTokens (s : String) : List String :=
  ((chunksP isWordChar (s.data.map Char.toLower)).filter
    (fun r => 2 ≤ r.length)).map (fun r => String.mk r)

/-- The terms of one document under `ngram_range=(1, 2)` with stopword
set `sw` (`stop_words='english'` is an externally fixed list, so it is
a parameter here): the stopword-filtered tokens, followed by the
space-joined bigrams of consecutive surviving tokens. -/
def docTerms (sw : List String) (s : String) : List String :=
  let toks := (sklearnTokens s).filter (fun t => !sw.contains t)
  toks ++ (toks.zip toks.tail).map (fun p => p.1 ++ " " ++ p.2)

/-- The vocabulary the vectorizer fits on the two-document corpus
`[a, b]`: every term of either document (first-occurrence order; the
alphabetical index assignment and the `max_features=500` frequency cap
of the source permute/shrink the vocabulary in a way none of the
verified claims depend on — an empty vocabulary stays empty and a
non-empty one stays non-empty, and identical documents keep identical
rows). -/
def vocabulary (sw : List String) (a b : String) : List String :=
  (docTerms sw a ++ docTerms sw b).dedup

/-- Document frequency of term `t` in the two-document corpus. -/
def docFreq (sw : List String) (a b : String) (t : String) : Nat :=
  (if t ∈ docTerms sw a then 1 else 0) + (if t ∈ docTerms sw b then 1 else 0)

/-- Smoothed inverse document frequency (`smooth_idf=True`, corpus size
`n = 2`): `ln((1 + n) / (1 + df)) + 1`. -/
noncomputable def idfVal (df : Nat) : ℝ := Real.log (3 / (1 + (df : ℝ))) + 1

/-- The (unnormalized) TF-IDF row of document `doc` over the vocabulary
fitted on `[a, b]`: raw term count times smoothed IDF
(`sublinear_tf=False`, the default). -/
noncomputable def tfidfRow (sw : List String) (a b doc : String) : List ℝ :=
  (vocabulary sw a b).map
    (fun t => ((docTerms sw doc).count t : ℝ) * idfVal (docFreq sw a b t))

/-- Dot product of two real vectors. -/
noncomputable def dotL (u v : List ℝ) : ℝ := (List.zipWith (· * ·) u v).sum

/-- `ResumeMatcher.calculate_similarity_score` (`scoring.py` lines
26–47).  `fit_transform` raises `ValueError` exactly when the fitted
vocabulary is empty; the `except` clause turns that into `0.0`, which
is the `if` branch here, making the function total.  Otherwise the
result is the cosine of the two TF-IDF rows (the vectorizer
l2-normalizes rows and `cosine_similarity` dots the normalized rows;
a zero row yields 0, matching the division-by-zero convention of
`ℝ`). -/
noncomputable def calculate_similarity_score
    (sw : List String) (resume_text jd_text : String) : ℝ :=
  if vocabulary sw resume_text jd_text = [] then 0
  else
    dotL (tfidfRow sw resume_text jd_text resume_text)
        (tfidfRow sw resume_text jd_text jd_text) /
      (Real.sqrt (dotL (tfidfRow sw resume_text jd_text resume_text)
          (tfidfRow sw resume_text jd_text resume_text)) *
       Real.sqrt (dotL (tfidfRow sw resume_text jd_text jd_text)
          (tfidfRow sw resume_text jd_text jd_text)))

/-- C7: the similarity computation is total — in the degenerate case
(empty fitted vocabulary, e.g. both documents reduce to nothing after
tokenization and stopword removal) it returns `0.0` instead of
propagating the vectorizer's `ValueError`.  Totality on all other
inputs holds by construction of the embedding (the function is defined
for every input). -/
theorem C7_similarity_degenerate_zero (sw : List String) (a b : String)
    (h : vocabulary sw a b = []) : calculate_similarity_score sw a b = 0 := by
  rw [calculate_similarity_score, if_pos h]

/-- Witness for C7: two empty documents produce an empty vocabulary and
similarity `0.0`. -/
theorem C7_similarity_degenerate_zero_witness :
    vocabulary [] "" "" = [] ∧ calculate_similarity_score [] "" "" = 0 := by
  refine ⟨by decide, ?_⟩
  exact C7_similarity_degenerate_zero [] "" "" (by decide)

/-- C8 (counterexample): `"x"` is a non-empty text, yet
`similarity("x", "x")` is `0.0`, not `1.0` — the single-character token
is discarded by the `\w\w+` token pattern, the fitted vocabulary is
empty, and the `except` fallback fires. -/
theorem C8_counterexample :
    ("x" : String) ≠ "" ∧ calculate_similarity_score [] "x" "x" = 0 := by
  refine ⟨by decide, ?_⟩
  rw [calculate_similarity_score, if_pos (by decide)]

/-- C8 (amended): for every text whose fitted vocabulary is non-empty
(rather than every non-empty text), the self-similarity is exactly
`1`. -/
theorem C8_self_similarity (sw : List String) (a : String)
    (h : vocabulary sw a a ≠ []) : calculate_similarity_score sw a a = 1 := by
  rw [calculate_similarity_score, if_neg h]
  set v := tfidfRow sw a a a with hv
  have hzip : List.zipWith (· * ·) v v = v.map (fun x => x * x) :=
    List.zipWith_same _ v
  have hnn : 0 ≤ dotL v v := by
    rw [dotL, hzip]
    apply List.sum_nonneg
    intro x hx
    obtain ⟨y, _, rfl⟩ := List.mem_map.mp hx
    exact mul_self_nonneg y
  have hpos : 0 < dotL v v := by
    obtain ⟨t, ht⟩ := List.exists_mem_of_ne_nil _ h
    have hta : t ∈ docTerms sw a := by
      have hm := List.mem_dedup.mp ht
      simpa [List.mem_append, or_self] using hm
    have hcount : 1 ≤ (docTerms sw a).count t := by
      have := List.count_pos_iff.mpr hta
      omega
    have hdf : docFreq sw a a t = 2 := by simp [docFreq, hta]
    have hidf : idfVal 2 = 1 := by
      rw [idfVal]
      norm_num
    have hmem : ((docTerms sw a).count t : ℝ) * idfVal (docFreq sw a a t) ∈ v := by
      rw [hv, tfidfRow]
      exact List.mem_map_of_mem _ ht
    set e := ((docTerms sw a).count t : ℝ) * idfVal (docFreq sw a a t) with he
    have he1 : (1 : ℝ) ≤ e := by
      rw [he, hdf, hidf, mul_one]
      exact_mod_cast hcount
    have hsq : e * e ∈ List.zipWith (· * ·) v v := by
      rw [hzip]
      exact List.mem_map_of_mem _ hmem
    have hle : e * e ≤ dotL v v := by
      rw [dotL]
      refine List.single_le_sum ?_ _ hsq
      intro x hx
      rw [hzip] at hx
      obtain ⟨y, _, rfl⟩ := List.mem_map.mp hx
      exact mul_self_nonneg y
    nlinarith
  rw [Real.mul_self_sqrt hnn, div_self (ne_of_gt hpos)]

/-- Witness for C8 (amended) on the text `"python developer"`, whose
vocabulary is non-empty. -/
theorem C8_self_similarity_witness :
    vocabulary [] "python developer" "python developer" ≠ [] ∧
    calculate_similarity_score [] "python developer" "python developer" = 1 := by
  exact ⟨by decide, C8_self_similarity [] "python developer" (by decide)⟩

/-- A whitespace character in the sense of Python's `\s` / `str.split()`
(ASCII range). -/
def isSpaceChar (c : Char) : Bool :=
  c == ' ' || c == '\t' || c == '\n' || c == '\r' || c == '\x0b' || c == '\x0c'

/-- `details.get(key, [])` for a list-valued entry of the
`skill_details` dict. -/
def getStrs (d : List (String × DVal)) (k : String) : List String :=
  match List.lookup k d with
  | some (DVal.strs l) => l
  | _ => []

/-- `details.get(key, 0)` for a count-valued entry of the
`skill_details` dict. -/
def getNum (d : List (String × DVal)) (k : String) : Nat :=
  match List.lookup k d with
  | some (DVal.num n) => n
  | _ => 0

/-- The headline sentence of `ResumeMatcher.generate_feedback`
(`scoring.py` lines 131–139), keyed to the unrounded composite
score. -/
noncomputable def feedbackHeadline (composite_score : ℝ) : String :=
  if 80 ≤ composite_score then
    "✓ Excellent match! This resume aligns well with the job requirements."
  else if 60 ≤ composite_score then
    "○ Good match. The candidate has relevant skills and experience."
  else if 40 ≤ composite_score then
    "⚠ Partial match. The candidate has some relevant skills but may lack others."
  else
    "✗ Limited match. Consider looking for candidates with more aligned experience."

/-- `ResumeMatcher.generate_feedback` (`scoring.py` lines 112–165):
headline, matched list (up to 5 plus `+N more`), missing list (up to 3
plus `+N more`), coverage line, and length advisories keyed to
`len(resume_text.split())`; joined with newlines.  `jd_text` is an
argument of the source function but is not used by it. -/
noncomputable def generate_feedback (resume_text jd_text : String)
    (skill_match_details : List (String × DVal)) (composite_score : ℝ) :
    String :=
  let matched := getStrs skill_match_details "matched"
  let missing := getStrs skill_match_details "missing"
  let required := getNum skill_match_details "required"
  let found := getNum skill_match_details "found"
  let fb0 := [feedbackHeadline composite_score]
  let fb1 := if matched ≠ [] then
      fb0 ++ ["\nMatched Skills: " ++ String.intercalate ", " (matched.take 5) ++
        (if 5 < matched.length then
          " (+" ++ toString (matched.length - 5) ++ " more)" else "")]
    else fb0
  let fb2 := if missing ≠ [] then
      fb1 ++ ["\nMissing Skills: " ++ String.intercalate ", " (missing.take 3) ++
        (if 3 < missing.length then
          " (+" ++ toString (missing.length - 3) ++ " more)" else "")]
    else fb1
  let fb3 := fb2 ++ [if required ≠ 0 then
      "\nSkill Coverage: " ++ toString found ++ "/" ++ toString required ++
        " total skills found"
    else "\nResume includes " ++ toString found ++ " relevant skills"]
  let resume_words := (chunksP (fun c => !isSpaceChar c) resume_text.data).length
  let fb4 := if resume_words < 100 then
      fb3 ++ ["\nNote: Resume is quite short. Consider adding more details."]
    else if 1500 < resume_words then
      fb3 ++ ["\nNote: Resume is very long. Consider condensing to 1-2 pages."]
    else fb3
  String.intercalate "\n" fb4

/-- The `ScoringResult` dict returned by `ResumeMatcher.score_resume`
(`scoring.py` lines 198–205); its key set is fixed, so it is a
structure. -/
structure ScoringResult where
  final_score : ℝ
  similarity_score : ℝ
  skill_match_score : ℝ
  skill_details : List (String × DVal)
  feedback : String
  rating : String

/-- `ResumeMatcher.score_resume` (`scoring.py` lines 167–205): the full
pipeline.  Note that `final_score` is the composite rounded to two
decimals while `rating` and the feedback are computed from the
unrounded composite. -/
noncomputable def score_resume (sw : List String) (resume_text jd_text : String)
    (resume_skills jd_skills : ExtractResult) (weights : Option (ℝ × ℝ)) :
    ScoringResult :=
  let similarity := calculate_similarity_score sw resume_text jd_text
  let sm := calculate_skill_match_score resume_skills jd_skills
  let composite := generate_composite_score similarity ((sm.1 : ℚ) : ℝ) weights
  { final_score := round2 composite
    similarity_score := round2 (similarity * 100)
    skill_match_score := round2 (((sm.1 : ℚ) : ℝ) * 100)
    skill_details := sm.2
    feedback := generate_feedback resume_text jd_text sm.2 composite
    rating := score_to_rating composite }

/-- C10: `rating` and the feedback are computed from the unrounded
composite while `final_score` is the composite rounded to two decimals;
consequently there are inputs (here: perfect skill match, weights
`(0, 0.79999)`, giving composite `79.999 ∈ [79.995, 80)`) whose result
has `final_score = 80.0` but the 4-star rating. -/
theorem C10_rating_unrounded_vs_rounded :
    (∀ (sw : List String) (rt jt : String) (rs js : ExtractResult)
        (w : Option (ℝ × ℝ)),
      (score_resume sw rt jt rs js w).rating =
        score_to_rating (generate_composite_score
          (calculate_similarity_score sw rt jt)
          (((calculate_skill_match_score rs js).1 : ℚ) : ℝ) w) ∧
      (score_resume sw rt jt rs js w).feedback =
        generate_feedback rt jt (calculate_skill_match_score rs js).2
          (generate_composite_score (calculate_similarity_score sw rt jt)
            (((calculate_skill_match_score rs js).1 : ℚ) : ℝ) w) ∧
      (score_resume sw rt jt rs js w).final_score =
        round2 (generate_composite_score (calculate_similarity_score sw rt jt)
          (((calculate_skill_match_score rs js).1 : ℚ) : ℝ) w)) ∧
    (score_resume [] "" "" ⟨[("cloud", ["aws"])], [("aws", 1)], 1⟩
        ⟨[("cloud", ["aws"])], [("aws", 1)], 1⟩
        (some (0, 0.79999))).final_score = 80 ∧
    (score_resume [] "" "" ⟨[("cloud", ["aws"])], [("aws", 1)], 1⟩
        ⟨[("cloud", ["aws"])], [("aws", 1)], 1⟩
        (some (0, 0.79999))).rating = "⭐⭐⭐⭐" := by
  have h1 : (flatSkills [("cloud", ["aws"])] ∩
      flatSkills [("cloud", ["aws"])]).card = 1 := by decide
  have h2 : (flatSkills [("cloud", ["aws"])]).card = 1 := by decide
  have hne : ¬ flatSkills [("cloud", ["aws"])] = ∅ := by decide
  have hsm : (calculate_skill_match_score
      ⟨[("cloud", ["aws"])], [("aws", 1)], 1⟩
      ⟨[("cloud", ["aws"])], [("aws", 1)], 1⟩).1 = 1 := by
    simp only [calculate_skill_match_score, if_neg hne, h1, h2]
    norm_num
  have hcomp : generate_composite_score
      (calculate_similarity_score [] "" "") ((1 : ℚ) : ℝ)
      (some (0, 0.79999)) = 79.999 := by
    simp only [generate_composite_score, Option.getD_some]
    push_cast
    ring_nf
  refine ⟨fun sw rt jt rs js w => ⟨rfl, rfl, rfl⟩, ?_, ?_⟩
  · show round2 (generate_composite_score _ _ _) = 80
    rw [hsm, hcomp, round2]
    have hround : round ((79.999 : ℝ) * 100) = 8000 := by
      rw [round_eq, Int.floor_eq_iff]
      norm_num
    rw [hround]
    norm_num
  · show score_to_rating (generate_composite_score _ _ _) = "⭐⭐⭐⭐"
    rw [hsm, hcomp, score_to_rating,
      if_neg (by norm_num), if_pos (by norm_num)]

/-- `\w`-status of an optional character; `none` (out of range) counts
as a non-word position, as in regex boundary semantics. -/
def wordOpt : Option Char → Bool
  | some c => isWordChar c
  | none => false

/-- Scanning loop of `re.findall` for the pattern
`\b + re.escape(skill) + \b` (`nlp.py` line 94): non-overlapping
left-to-right matches.  `\b` holds between two positions iff exactly
one side is a word character (out-of-range counts as non-word), so a
literal `L` matches at a position iff `L` is a prefix there, the
preceding character's word-status differs from that of `L`'s first
character, and the word-status of `L`'s last character differs from
that of the following character.  After a match the scan resumes at
the match end.  `fuel` bounds the recursion; the wrapper passes
`t.length + 1`, which the scan (consuming at least one character per
step) never exhausts. -/
def findallGo (L : List Char) (f l : Char) :
    Nat → Option Char → List Char → Nat
  | 0, _, _ => 0
  | _ + 1, _, [] => 0
  | fuel + 1, prev, c :: cs =>
    if L.isPrefixOf (c :: cs) && (wordOpt prev != isWordChar f)
        && (isWordChar l != wordOpt ((c :: cs).drop L.length).head?) then
      1 + findallGo L f l fuel (some l) ((c :: cs).drop L.length)
    else findallGo L f l fuel (some c) cs

/-- `len(re.findall(r'\b' + re.escape(skill) + r'\b', text))` for a
non-empty literal `skill` (`re.escape` makes the skill a literal, so
only the `\b` anchors carry regex meaning). -/
def findallWB (L : List Char) (t : List Char) : Nat :=
  match L.head?, L.getLast? with
  | some f, some l => findallGo L f l (t.length + 1) none t
  | _, _ => 0

/-- The count the specification describes: the number of whole-word
occurrences of `L` in `t`, i.e. positions where `L` occurs and is
neither preceded nor followed by an alphanumeric/underscore
character. -/
def wholeWordCount (L t : List Char) : Nat :=
  if L = [] then 0
  else (List.range t.length).countP (fun i =>
    L.isPrefixOf (t.drop i) &&
    !wordOpt (if i = 0 then none else (t.drop (i - 1)).head?) &&
    !wordOpt ((t.drop (i + L.length)).head?))

/-- `skills_found[category].append(skill)` with dict insertion-order
semantics (`nlp.py` lines 99–102). -/
def addSkill (byCat : List (String × List String)) (category skill : String) :
    List (String × List String) :=
  if byCat.any (fun p => p.1 == category) then
    byCat.map (fun p => if p.1 == category then (p.1, p.2 ++ [skill]) else p)
  else byCat ++ [(category, [skill])]

/-- `SkillExtractor.extract_skills` (`nlp.py` lines 77–109) over a
flattened taxonomy `all_skills` (skill → category pairs in iteration
order; `_flatten_skills_taxonomy` lower-cases the skill names): lower-
case the text, count the regex matches per skill, and record the skill
under its category iff `count >= threshold`. -/
def extract_skills (all_skills : List (String × String)) (text : String)
    (threshold : Nat) : ExtractResult :=
  let tl := text.data.map Char.toLower
  let res := all_skills.foldl
    (fun (acc : List (String × List String) × List (String × Nat)) p =>
      let count := findallWB p.1.data tl
      if threshold ≤ count then
        (addSkill acc.1 p.2 p.1, acc.2 ++ [(p.1, count)])
      else acc)
    ([], [])
  ⟨res.1, res.2, res.2.length⟩

/-- C1 (code bug): for skills whose edge characters are not word
characters the `\b` anchors do not implement whole-word matching.  The
skill `"c++"` standing alone in the text is not counted (and not
reported) although it is a whole-word occurrence, while `"c++"`
immediately followed by the alphanumeric `x` *is* counted (a partial
match, which the code's own comment says the boundaries are there to
avoid).  For skills with alphanumeric edges (`"python"`) the two
semantics agree. -/
theorem C1_word_boundary_bug :
    findallWB "c++".data "c++".data = 0 ∧
    wholeWordCount "c++".data "c++".data = 1 ∧
    findallWB "c++".data "c++x".data = 1 ∧
    wholeWordCount "c++".data "c++x".data = 0 ∧
    extract_skills [("c++", "programming_languages")] "c++" 1 = ⟨[], [], 0⟩ ∧
    extract_skills [("c++", "programming_languages")] "c++x" 1 =
      ⟨[("programming_languages", ["c++"])], [("c++", 1)], 1⟩ ∧
    findallWB "python".data "python and python3".data = 1 ∧
    wholeWordCount "python".data "python and python3".data = 1 := by
  decide

/-- `\S` (non-whitespace) as a predicate. -/
def nsp (c : Char) : Bool := !isSpaceChar c

/-- Does the list start with a non-space character?  (`false` on the
empty list: used to test whether a regex `\S+` can continue.) -/
def nonSpaceHead (t : List Char) : Bool :=
  match t.head? with
  | some c => nsp c
  | none => false

/-- `re.sub(r'http\S+|www\S+', '', text)` (`nlp.py` line 125): scan
left to right; at each position try `http\S+`, then `www\S+` (the
literal must be followed by at least one non-space character, and the
greedy `\S+` then consumes every following non-space character);
on a match resume after it, otherwise keep the character. -/
def subUrls : List Char → List Char
  | [] => []
  | c :: cs =>
    if "http".data.isPrefixOf (c :: cs) && nonSpaceHead ((c :: cs).drop 4) then
      subUrls (((c :: cs).drop 4).dropWhile nsp)
    else if "www".data.isPrefixOf (c :: cs) && nonSpaceHead ((c :: cs).drop 3) then
      subUrls (((c :: cs).drop 3).dropWhile nsp)
    else c :: subUrls cs
termination_by t => t.length
decreasing_by
  · have h1 : (((c :: cs).drop 4).dropWhile nsp).length ≤
        ((c :: cs).drop 4).length := (List.dropWhile_sublist nsp).length_le
    have h2 : ((c :: cs).drop 4).length = cs.length + 1 - 4 := by
      simp [List.length_drop]
    have h3 : (c :: cs).length = cs.length + 1 := List.length_cons c cs
    omega
  · have h1 : (((c :: cs).drop 3).dropWhile nsp).length ≤
        ((c :: cs).drop 3).length := (List.dropWhile_sublist nsp).length_le
    have h2 : ((c :: cs).drop 3).length = cs.length + 1 - 3 := by
      simp [List.length_drop]
    have h3 : (c :: cs).length = cs.length + 1 := List.length_cons c cs
    omega
  · simp

/-- Does a non-space run contain an `@` at an interior position (some
character of the run strictly before it and some character strictly
after it)?  This is exactly when the greedy pattern `\S+@\S+` matches
somewhere in the run — and then its leftmost-longest match is the whole
run. -/
def hasInteriorAt (run : List Char) : Bool := ((run.drop 1).dropLast).contains '@'

/-- `re.sub(r'\S+@\S+', '', text)` (`nlp.py` line 127).  A match of
`\S+@\S+` lies inside a maximal non-space run; a run matches iff it
contains an interior `@` (the first `\S+` needs a character before the
`@`, the second one after), and then the greedy/backtracking semantics
make the match exactly the whole run, which is removed. -/
def subEmails : List Char → List Char
  | [] => []
  | c :: cs =>
    if h : isSpaceChar c then c :: subEmails cs
    else
      if hasInteriorAt ((c :: cs).takeWhile nsp) then
        subEmails ((c :: cs).dropWhile nsp)
      else (c :: cs).takeWhile nsp ++ subEmails ((c :: cs).dropWhile nsp)
termination_by t => t.length
decreasing_by
  · simp
  · have h1 : (c :: cs).dropWhile nsp = cs.dropWhile nsp := by
      rw [List.dropWhile_cons]
      simp [nsp, h]
    have h1' : ((c :: cs).dropWhile nsp).length = (cs.dropWhile nsp).length := by
      rw [h1]
    have h2 : (cs.dropWhile nsp).length ≤ cs.length :=
      (List.dropWhile_sublist nsp).length_le
    have h3 : (c :: cs).length = cs.length + 1 := List.length_cons c cs
    omega
  · have h1 : (c :: cs).dropWhile nsp = cs.dropWhile nsp := by
      rw [List.dropWhile_cons]
      simp [nsp, h]
    have h1' : ((c :: cs).dropWhile nsp).length = (cs.dropWhile nsp).length := by
      rw [h1]
    have h2 : (cs.dropWhile nsp).length ≤ cs.length :=
      (List.dropWhile_sublist nsp).length_le
    have h3 : (c :: cs).length = cs.length + 1 := List.length_cons c cs
    omega

/-- `re.sub(r'\s+', ' ', text)` (`nlp.py` line 129): every maximal
whitespace run becomes a single ASCII space (emitted at the run's last
character). -/
def collapseWs : List Char → List Char
  | [] => []
  | c :: cs =>
    if isSpaceChar c then
      if cs.head?.any isSpaceChar then collapseWs cs else ' ' :: collapseWs cs
    else c :: collapseWs cs

/-- Removal of trailing whitespace (via reversal). -/
def dropTrailingWs (t : List Char) : List Char :=
  (t.reverse.dropWhile isSpaceChar).reverse

/-- Python's `str.strip()`: drop leading and trailing whitespace. -/
def stripWs (t : List Char) : List Char :=
  dropTrailingWs (t.dropWhile isSpaceChar)

/-- `preprocess_text` (`nlp.py` lines 112–130): lower-case, strip
URL-like tokens, strip email-like tokens, collapse whitespace runs to
single spaces, trim.  Total by construction (the source has no failure
path). -/
def preprocess_text (s : String) : String :=
  String.mk (stripWs (collapseWs (subEmails (subUrls (s.data.map Char.toLower)))))

/-- Does a non-space run start (at its head) a `http\S+` or `www\S+`
match?  Within a run every character is non-space, so the "followed by
at least one non-space character" condition of `\S+` becomes a length
condition. -/
def urlRunHead (u : List Char) : Bool :=
  ("http".data.isPrefixOf u && decide (5 ≤ u.length)) ||
  ("www".data.isPrefixOf u && decide (4 ≤ u.length))

/-- Effect of the URL substitution on one maximal non-space run: the
prefix before the first match position (the match itself extends to the
run's end). -/
def stripUrlRun : List Char → List Char
  | [] => []
  | c :: cs => if urlRunHead (c :: cs) then [] else c :: stripUrlRun cs

/-- Effect of the email substitution on one maximal non-space run:
drop the run entirely iff it contains an interior `@`. -/
def gEmailRun (r : List Char) : List Char := if hasInteriorAt r then [] else r

/-- Apply `g` to every maximal non-space run, keeping the whitespace
characters as they are. -/
def mapRuns (g : List Char → List Char) : List Char → List Char
  | [] => []
  | c :: cs =>
    if h : isSpaceChar c then c :: mapRuns g cs
    else g ((c :: cs).takeWhile nsp) ++ mapRuns g ((c :: cs).dropWhile nsp)
termination_by t => t.length
decreasing_by
  · simp
  · have h1 : (c :: cs).dropWhile nsp = cs.dropWhile nsp := by
      rw [List.dropWhile_cons]
      simp [nsp, h]
    have h1' : ((c :: cs).dropWhile nsp).length = (cs.dropWhile nsp).length := by
      rw [h1]
    have h2 : (cs.dropWhile nsp).length ≤ cs.length :=
      (List.dropWhile_sublist nsp).length_le
    have h3 : (c :: cs).length = cs.length + 1 := List.length_cons c cs
    omega

/-- Rebuild a text from its non-space runs with single-space
separators: the shape of a fully normalized text. -/
def joinRuns : List (List Char) → List Char
  | [] => []
  | [r] => r
  | r :: rs => r ++ ' ' :: joinRuns rs

/-- The maximal non-space runs of a text. -/
def runsOf (t : List Char) : List (List Char) := chunksP nsp t

/-- Runs produced by `chunksP` are non-empty, consist of characters
satisfying `p`, and draw their characters from the input. -/
theorem chunksP_mem (p : Char → Bool) :
    ∀ (t r : List Char), r ∈ chunksP p t →
      r ≠ [] ∧ (∀ c ∈ r, p c = true) ∧ (∀ c ∈ r, c ∈ t)
  | [], r, hr => by simp [chunksP] at hr
  | c :: cs, r, hr => by
    by_cases hp : p c = true
    · rw [chunksP_cons_pos p cs c hp] at hr
      rcases List.mem_cons.mp hr with h | h
      · subst h
        refine ⟨by simp, ?_, ?_⟩
        · intro d hd
          rcases List.mem_cons.mp hd with rfl | hd'
          · exact hp
          · exact List.mem_takeWhile_imp hd'
        · intro d hd
          rcases List.mem_cons.mp hd with rfl | hd'
          · exact List.mem_cons_self _ _
          · exact List.mem_cons_of_mem _ ((List.takeWhile_sublist p).subset hd')
      · have ih := chunksP_mem p (cs.dropWhile p) r h
        refine ⟨ih.1, ih.2.1, ?_⟩
        intro d hd
        exact List.mem_cons_of_mem _
          ((List.dropWhile_sublist p).subset (ih.2.2 d hd))
    · rw [chunksP_cons_neg p cs c (by simpa using hp)] at hr
      have ih := chunksP_mem p cs r hr
      exact ⟨ih.1, ih.2.1, fun d hd => List.mem_cons_of_mem _ (ih.2.2 d hd)⟩
termination_by t _ _ => t.length
decreasing_by
  · have := (List.dropWhile_sublist (l := cs) p).length_le
    simp only [List.length_cons]
    omega
  · simp

/-- A text none of whose characters satisfies `p` has no runs. -/
theorem chunksP_eq_nil (p : Char → Bool) :
    ∀ (t : List Char), (∀ c ∈ t, p c = false) → chunksP p t = [] := by
  intro t
  induction t with
  | nil => intro _; rfl
  | cons c cs ih =>
    intro h
    rw [chunksP_cons_neg p cs c (h c (List.mem_cons_self c cs))]
    exact ih fun d hd => h d (List.mem_cons_of_mem c hd)

/-- Conversely, a text with no runs has no character satisfying `p`. -/
theorem chunksP_nil_all (p : Char → Bool) :
    ∀ (t : List Char), chunksP p t = [] → ∀ c ∈ t, p c = false := by
  intro t
  induction t with
  | nil => intro _ c hc; cases hc
  | cons c cs ih =>
    intro h d hd
    by_cases hp : p c = true
    · rw [chunksP_cons_pos p cs c hp] at h
      cases h
    · rw [chunksP_cons_neg p cs c (by simpa using hp)] at h
      rcases List.mem_cons.mp hd with rfl | hd'
      · simpa using hp
      · exact ih h d hd'

/-- `takeWhile`/`dropWhile` across an all-`p` prefix. -/
theorem takeWhile_all_append (p : Char → Bool) :
    ∀ (u v : List Char), (∀ c ∈ u, p c = true) →
      (u ++ v).takeWhile p = u ++ v.takeWhile p ∧
      (u ++ v).dropWhile p = v.dropWhile p := by
  intro u
  induction u with
  | nil => intro v _; exact ⟨rfl, rfl⟩
  | cons c cs ih =>
    intro v h
    have hc : p c = true := h c (List.mem_cons_self c cs)
    have ih' := ih v (fun d hd => h d (List.mem_cons_of_mem c hd))
    constructor
    · rw [List.cons_append, List.takeWhile_cons, if_pos hc, ih'.1]
      rfl
    · rw [List.cons_append, List.dropWhile_cons]
      simp only [hc, if_true]
      exact ih'.2

/-- `takeWhile nsp`/`dropWhile nsp` on a text that does not start with
a non-space character. -/
theorem takeWhile_nsp_of_wsHead (v : List Char) (h : nonSpaceHead v = false) :
    v.takeWhile nsp = [] ∧ v.dropWhile nsp = v := by
  cases v with
  | nil => exact ⟨rfl, rfl⟩
  | cons c cs =>
    have hc : nsp c = false := by simpa [nonSpaceHead] using h
    rw [List.takeWhile_cons, List.dropWhile_cons]
    simp [hc]

/-- Non-space runs of a concatenation whose first part is one non-empty
all-non-space block and whose second part does not start with a
non-space character. -/
theorem runsOf_append (u v : List Char) (hu : u ≠ [])
    (hall : ∀ c ∈ u, nsp c = true) (hv : nonSpaceHead v = false) :
    runsOf (u ++ v) = u :: runsOf v := by
  cases u with
  | nil => exact absurd rfl hu
  | cons c cs =>
    have hc : nsp c = true := hall c (List.mem_cons_self c cs)
    have hall' : ∀ d ∈ cs, nsp d = true :=
      fun d hd => hall d (List.mem_cons_of_mem c hd)
    rw [runsOf, List.cons_append, chunksP_cons_pos nsp (cs ++ v) c hc]
    have h1 := takeWhile_all_append nsp cs v hall'
    rw [h1.1, h1.2, (takeWhile_nsp_of_wsHead v hv).1,
      (takeWhile_nsp_of_wsHead v hv).2]
    simp [runsOf]

/-- A single non-empty all-non-space block is its own unique run. -/
theorem runsOf_single (u : List Char) (hu : u ≠ [])
    (hall : ∀ c ∈ u, nsp c = true) : runsOf u = [u] := by
  have := runsOf_append u [] hu hall rfl
  simpa using this

/-- Non-space runs ignore an all-whitespace prefix. -/
theorem runsOf_ws_append (w v : List Char)
    (hw : ∀ c ∈ w, isSpaceChar c = true) : runsOf (w ++ v) = runsOf v := by
  induction w with
  | nil => rfl
  | cons c cs ih =>
    have hc : nsp c = false := by
      simp [nsp, hw c (List.mem_cons_self c cs)]
    rw [List.cons_append, runsOf, chunksP_cons_neg nsp (cs ++ v) c hc]
    exact ih fun d hd => hw d (List.mem_cons_of_mem c hd)

/-- Unfolding equation of `collapseWs` at a cons cell. -/
theorem collapseWs_cons (c : Char) (cs : List Char) :
    collapseWs (c :: cs) =
      if isSpaceChar c then
        if cs.head?.any isSpaceChar then collapseWs cs else ' ' :: collapseWs cs
      else c :: collapseWs cs := rfl

/-- `collapseWs` passes an all-non-space block through unchanged. -/
theorem collapseWs_nsp_append (u v : List Char)
    (hall : ∀ c ∈ u, nsp c = true) : collapseWs (u ++ v) = u ++ collapseWs v := by
  induction u with
  | nil => rfl
  | cons c cs ih =>
    have hc : isSpaceChar c = false := by
      have := hall c (List.mem_cons_self c cs)
      simpa [nsp] using this
    rw [List.cons_append, collapseWs_cons, if_neg (by simp [hc]),
      ih fun d hd => hall d (List.mem_cons_of_mem c hd)]
    rfl

/-- `collapseWs` sends a non-empty all-whitespace text to one space. -/
theorem collapseWs_allws (t : List Char) (ht : t ≠ [])
    (hall : ∀ c ∈ t, isSpaceChar c = true) : collapseWs t = [' '] := by
  induction t with
  | nil => exact absurd rfl ht
  | cons c cs ih =>
    have hc : isSpaceChar c = true := hall c (List.mem_cons_self c cs)
    cases cs with
    | nil =>
      rw [collapseWs_cons, if_pos hc, if_neg (by simp)]
      rfl
    | cons d ds =>
      have hd : isSpaceChar d = true :=
        hall d (List.mem_cons_of_mem c (List.mem_cons_self d ds))
      rw [collapseWs_cons, if_pos hc, if_pos (by simp [hd])]
      exact ih (by simp) fun e he => hall e (List.mem_cons_of_mem c he)

/-- `collapseWs` over an all-whitespace non-empty prefix followed by a
text starting with a non-space character. -/
theorem collapseWs_ws_append (w v : List Char) (hw : w ≠ [])
    (hall : ∀ c ∈ w, isSpaceChar c = true) (hv : nonSpaceHead v = true) :
    collapseWs (w ++ v) = ' ' :: collapseWs v := by
  induction w with
  | nil => exact absurd rfl hw
  | cons c cs ih =>
    have hc : isSpaceChar c = true := hall c (List.mem_cons_self c cs)
    cases cs with
    | nil =>
      rw [List.cons_append, List.nil_append, collapseWs_cons, if_pos hc]
      have : v.head?.any isSpaceChar = false := by
        cases v with
        | nil => simp [nonSpaceHead] at hv
        | cons d ds =>
          have : nsp d = true := by simpa [nonSpaceHead] using hv
          simp [nsp] at this
          simp [this]
      rw [if_neg (by simp [this])]
    | cons d ds =>
      have hd : isSpaceChar d = true :=
        hall d (List.mem_cons_of_mem c (List.mem_cons_self d ds))
      rw [List.cons_append, collapseWs_cons, if_pos hc,
        if_pos (by simp [hd])]
      exact ih (by simp) fun e he => hall e (List.mem_cons_of_mem c he)

/-- `dropWhile` is the identity when no element satisfies `p`. -/
theorem dropWhile_of_none (p : Char → Bool) (u : List Char)
    (h : ∀ c ∈ u, p c = false) : u.dropWhile p = u := by
  cases u with
  | nil => rfl
  | cons c cs =>
    rw [List.dropWhile_cons]
    simp [h c (List.mem_cons_self c cs)]

/-- `dropWhile` distributes over an append when it does not consume the
whole first part. -/
theorem dropWhile_append_of_ne_nil (p : Char → Bool) :
    ∀ (u w : List Char), u.dropWhile p ≠ [] →
      (u ++ w).dropWhile p = u.dropWhile p ++ w := by
  intro u
  induction u with
  | nil => intro w h; exact absurd rfl h
  | cons c cs ih =>
    intro w h
    rw [List.cons_append, List.dropWhile_cons]
    by_cases hc : p c = true
    · rw [List.dropWhile_cons, if_pos hc] at h
      rw [if_pos hc, ih w h, List.dropWhile_cons, if_pos hc]
    · have hc' : p c = false := by simpa using hc
      rw [if_neg (by simp [hc']), List.dropWhile_cons, if_neg (by simp [hc'])]
      rfl

/-- An all-non-space text has no trailing whitespace to drop. -/
theorem dropTrailingWs_nsp (r : List Char) (h : ∀ c ∈ r, nsp c = true) :
    dropTrailingWs r = r := by
  rw [dropTrailingWs, dropWhile_of_none _ _ ?_, List.reverse_reverse]
  intro c hc
  have := h c (List.mem_reverse.mp hc)
  simpa [nsp] using this

/-- A trailing space disappears under `dropTrailingWs`. -/
theorem dropTrailingWs_append_space (x : List Char) :
    dropTrailingWs (x ++ [' ']) = dropTrailingWs x := by
  rw [dropTrailingWs, dropTrailingWs, List.reverse_append]
  simp [List.dropWhile_cons, isSpaceChar]

/-- `dropTrailingWs` only touches the second part of an append when
that part does not vanish entirely. -/
theorem dropTrailingWs_append (a b : List Char) (h : dropTrailingWs b ≠ []) :
    dropTrailingWs (a ++ b) = a ++ dropTrailingWs b := by
  have hb : b.reverse.dropWhile isSpaceChar ≠ [] := by
    intro hnil
    apply h
    rw [dropTrailingWs, hnil]
    rfl
  rw [dropTrailingWs, List.reverse_append,
    dropWhile_append_of_ne_nil _ _ _ hb, List.reverse_append,
    List.reverse_reverse, dropTrailingWs]

/-- `stripWs` ignores a leading whitespace character. -/
theorem stripWs_cons_ws (c : Char) (t : List Char) (hc : isSpaceChar c = true) :
    stripWs (c :: t) = stripWs t := by
  rw [stripWs, stripWs, List.dropWhile_cons]
  simp [hc]

/-- On a text starting with a non-space character, `stripWs` only drops
trailing whitespace. -/
theorem stripWs_nsp_head (c : Char) (t : List Char) (hc : isSpaceChar c = false) :
    stripWs (c :: t) = dropTrailingWs (c :: t) := by
  rw [stripWs, List.dropWhile_cons]
  simp [hc]

/-- The head of a `dropWhile` result does not satisfy the predicate. -/
theorem dropWhile_head_not (p : Char → Bool) :
    ∀ (u : List Char) (d : Char) (ds : List Char),
      u.dropWhile p = d :: ds → p d = false := by
  intro u
  induction u with
  | nil => intro d ds h; cases h
  | cons c cs ih =>
    intro d ds h
    rw [List.dropWhile_cons] at h
    by_cases hc : p c = true
    · rw [if_pos hc] at h
      exact ih d ds h
    · have hc' : p c = false := by simpa using hc
      rw [if_neg (by simp [hc'])] at h
      cases h
      exact hc'

/-- `joinRuns` of a cons with a non-empty list of further runs. -/
theorem joinRuns_cons_cons (r x : List Char) (xs : List (List Char)) :
    joinRuns (r :: x :: xs) = r ++ ' ' :: joinRuns (x :: xs) := rfl

/-- `joinRuns` of a non-empty first run is non-empty. -/
theorem joinRuns_ne_nil (x : List Char) (xs : List (List Char)) (hx : x ≠ []) :
    joinRuns (x :: xs) ≠ [] := by
  cases xs with
  | nil => simpa [joinRuns] using hx
  | cons y ys =>
    rw [joinRuns_cons_cons]
    simp [hx]

/-- Central characterization: collapsing whitespace runs and stripping
the ends rebuilds the text as its non-space runs joined by single
spaces. -/
theorem stripCollapse : ∀ (t : List Char),
    stripWs (collapseWs t) = joinRuns (runsOf t)
  | [] => rfl
  | c :: cs => by
    by_cases hc : isSpaceChar c = true
    · have hrn : runsOf (c :: cs) = runsOf cs :=
        chunksP_cons_neg nsp cs c (by simp [nsp, hc])
      rw [hrn, collapseWs_cons, if_pos hc]
      by_cases hh : cs.head?.any isSpaceChar = true
      · rw [if_pos hh]
        exact stripCollapse cs
      · rw [if_neg hh, stripWs_cons_ws ' ' _ (by decide)]
        exact stripCollapse cs
    · have hc' : isSpaceChar c = false := by simpa using hc
      have hnsp : nsp c = true := by simp [nsp, hc']
      have hrall : ∀ d ∈ c :: cs.takeWhile nsp, nsp d = true := by
        intro d hd
        rcases List.mem_cons.mp hd with rfl | hd'
        · exact hnsp
        · exact List.mem_takeWhile_imp hd'
      have hruns : runsOf (c :: cs) =
          (c :: cs.takeWhile nsp) :: runsOf (cs.dropWhile nsp) := by
        rw [runsOf, chunksP_cons_pos nsp cs c hnsp]
        rfl
      have hsplit : c :: cs = (c :: cs.takeWhile nsp) ++ cs.dropWhile nsp := by
        rw [List.cons_append, List.takeWhile_append_dropWhile]
      have hrest_head : nonSpaceHead (cs.dropWhile nsp) = false := by
        cases hdw : cs.dropWhile nsp with
        | nil => simp [nonSpaceHead]
        | cons d ds =>
          have hd := dropWhile_head_not nsp cs d ds hdw
          simp only [nonSpaceHead, List.head?]
          exact hd
      rw [hruns]
      conv_lhs => rw [hsplit]
      rw [collapseWs_nsp_append _ _ hrall, List.cons_append,
        stripWs_nsp_head c _ hc']
      rcases hrest : runsOf (cs.dropWhile nsp) with _ | ⟨x, xs⟩
      · have hallws : ∀ d ∈ cs.dropWhile nsp, nsp d = false :=
          chunksP_nil_all nsp _ hrest
        rcases hdw : cs.dropWhile nsp with _ | ⟨d, ds⟩
        · rw [hdw] at *
          show dropTrailingWs (c :: (cs.takeWhile nsp ++ collapseWs [])) =
            joinRuns [c :: cs.takeWhile nsp]
          have : collapseWs ([] : List Char) = [] := rfl
          rw [this, List.append_nil]
          rw [dropTrailingWs_nsp _ hrall]
          rfl
        · have hne : (d :: ds : List Char) ≠ [] := by simp
          have hws : ∀ e ∈ (d :: ds : List Char), isSpaceChar e = true := by
            intro e he
            have he' : e ∈ cs.dropWhile nsp := by rw [hdw]; exact he
            have := hallws e he'
            simpa [nsp] using this
          rw [collapseWs_allws _ hne hws]
          show dropTrailingWs ((c :: cs.takeWhile nsp) ++ [' ']) =
            joinRuns [c :: cs.takeWhile nsp]
          rw [dropTrailingWs_append_space, dropTrailingWs_nsp _ hrall]
          rfl
      · have hne : cs.dropWhile nsp ≠ [] := by
          intro hnil
          rw [hnil] at hrest
          exact absurd hrest.symm (by simp [runsOf, chunksP])
        have hwsplit : cs.dropWhile nsp =
            (cs.dropWhile nsp).takeWhile isSpaceChar ++
              (cs.dropWhile nsp).dropWhile isSpaceChar :=
          (List.takeWhile_append_dropWhile isSpaceChar (cs.dropWhile nsp)).symm
        have hwall : ∀ e ∈ (cs.dropWhile nsp).takeWhile isSpaceChar,
            isSpaceChar e = true := fun e he => List.mem_takeWhile_imp he
        have hwne : (cs.dropWhile nsp).takeWhile isSpaceChar ≠ [] := by
          rcases hdw : cs.dropWhile nsp with _ | ⟨d, ds⟩
          · exact absurd hdw hne
          · have hd := dropWhile_head_not nsp cs d ds hdw
            have hd' : isSpaceChar d = true := by simpa [nsp] using hd
            rw [List.takeWhile_cons, if_pos hd']
            simp
        have hv'ne : (cs.dropWhile nsp).dropWhile isSpaceChar ≠ [] := by
          intro hnil
          have hallws : ∀ e ∈ cs.dropWhile nsp, nsp e = false := by
            intro e he
            have he' : e ∈ (cs.dropWhile nsp).takeWhile isSpaceChar ++
                (cs.dropWhile nsp).dropWhile isSpaceChar := by
              rw [List.takeWhile_append_dropWhile]
              exact he
            rw [hnil, List.append_nil] at he'
            have := hwall e he'
            simp [nsp, this]
          have hrest' : chunksP nsp (cs.dropWhile nsp) = x :: xs := hrest
          rw [chunksP_eq_nil nsp _ hallws] at hrest'
          cases hrest'
        have hv'head : nonSpaceHead ((cs.dropWhile nsp).dropWhile isSpaceChar) =
            true := by
          rcases hdv : (cs.dropWhile nsp).dropWhile isSpaceChar with _ | ⟨e, es⟩
          · exact absurd hdv hv'ne
          · have he := dropWhile_head_not isSpaceChar _ e es hdv
            simp [nonSpaceHead, nsp, he]
        have hrunsrest : runsOf (cs.dropWhile nsp) =
            runsOf ((cs.dropWhile nsp).dropWhile isSpaceChar) := by
          conv_lhs => rw [hwsplit]
          exact runsOf_ws_append _ _ hwall
        have hcollrest : collapseWs (cs.dropWhile nsp) =
            ' ' :: collapseWs ((cs.dropWhile nsp).dropWhile isSpaceChar) := by
          conv_lhs => rw [hwsplit]
          exact collapseWs_ws_append _ _ hwne hwall hv'head
        have ihv := stripCollapse ((cs.dropWhile nsp).dropWhile isSpaceChar)
        have hv'strip : dropTrailingWs
            (collapseWs ((cs.dropWhile nsp).dropWhile isSpaceChar)) =
            joinRuns (runsOf ((cs.dropWhile nsp).dropWhile isSpaceChar)) := by
          rcases hdv : (cs.dropWhile nsp).dropWhile isSpaceChar with _ | ⟨e, es⟩
          · exact absurd hdv hv'ne
          · have he := dropWhile_head_not isSpaceChar _ e es hdv
            rw [hdv] at ihv
            rw [collapseWs_cons, if_neg (by simp [he])] at ihv ⊢
            rw [← stripWs_nsp_head e _ he]
            exact ihv
        have hx_ne : x ≠ [] := by
          have hmem : x ∈ runsOf (cs.dropWhile nsp) := by
            rw [hrest]
            exact List.mem_cons_self _ _
          exact (chunksP_mem nsp _ x hmem).1
        have hjne : joinRuns (runsOf ((cs.dropWhile nsp).dropWhile isSpaceChar))
            ≠ [] := by
          rw [← hrunsrest, hrest]
          exact joinRuns_ne_nil x xs hx_ne
        have hrv' : runsOf ((cs.dropWhile nsp).dropWhile isSpaceChar) =
            x :: xs := by
          rw [← hrunsrest, hrest]
        rw [hcollrest]
        rw [joinRuns_cons_cons]
        have hassoc : c :: (cs.takeWhile nsp ++ ' ' ::
            collapseWs ((cs.dropWhile nsp).dropWhile isSpaceChar)) =
            ((c :: cs.takeWhile nsp) ++ [' ']) ++
              collapseWs ((cs.dropWhile nsp).dropWhile isSpaceChar) := by
          simp
        rw [hassoc]
        rw [dropTrailingWs_append _ _ (by rw [hv'strip]; exact hjne)]
        rw [hv'strip]
        rw [hrv']
        simp
termination_by t => t.length
decreasing_by
  · simp
  · simp
  · have h1 : ((cs.dropWhile nsp).dropWhile isSpaceChar).length ≤
        (cs.dropWhile nsp).length := (List.dropWhile_sublist isSpaceChar).length_le
    have h2 : (cs.dropWhile nsp).length ≤ cs.length :=
      (List.dropWhile_sublist nsp).length_le
    simp only [List.length_cons]
    omega

/-- Unfolding equation of `subUrls` at a cons cell. -/
theorem subUrls_cons (c : Char) (cs : List Char) :
    subUrls (c :: cs) =
      if "http".data.isPrefixOf (c :: cs) && nonSpaceHead ((c :: cs).drop 4) then
        subUrls (((c :: cs).drop 4).dropWhile nsp)
      else if "www".data.isPrefixOf (c :: cs) && nonSpaceHead ((c :: cs).drop 3) then
        subUrls (((c :: cs).drop 3).dropWhile nsp)
      else c :: subUrls cs := by
  rw [subUrls.eq_def]

/-- Unfolding equation of `subEmails` at a cons cell. -/
theorem subEmails_cons (c : Char) (cs : List Char) :
    subEmails (c :: cs) =
      if h : isSpaceChar c then c :: subEmails cs
      else
        if hasInteriorAt ((c :: cs).takeWhile nsp) then
          subEmails ((c :: cs).dropWhile nsp)
        else (c :: cs).takeWhile nsp ++ subEmails ((c :: cs).dropWhile nsp) := by
  rw [subEmails.eq_def]

/-- Unfolding equation of `mapRuns` at a cons cell. -/
theorem mapRuns_cons (g : List Char → List Char) (c : Char) (cs : List Char) :
    mapRuns g (c :: cs) =
      if h : isSpaceChar c then c :: mapRuns g cs
      else g ((c :: cs).takeWhile nsp) ++ mapRuns g ((c :: cs).dropWhile nsp) := by
  rw [mapRuns.eq_def]

/-- Splitting the "literal followed by a non-space character" test at a
run boundary: for an all-non-space literal `L`, an all-non-space block
`u` and a continuation `v` that does not start with a non-space
character, the test on `u ++ v` only sees `u`. -/
theorem lit_cond_split (L u v : List Char)
    (hLn : ∀ c ∈ L, nsp c = true) (hu : ∀ c ∈ u, nsp c = true)
    (hv : nonSpaceHead v = false) :
    (L.isPrefixOf (u ++ v) && nonSpaceHead ((u ++ v).drop L.length)) =
      (L.isPrefixOf u && decide (L.length + 1 ≤ u.length)) := by
  by_cases hlen : L.length + 1 ≤ u.length
  · have h4 : L.length ≤ u.length := by omega
    have himp : L <+: u ++ v ↔ L <+: u := by
      constructor
      · intro hq
        have ht := List.prefix_iff_eq_take.mp hq
        rw [List.take_append_of_le_length h4] at ht
        rw [ht]
        exact List.take_prefix _ _
      · intro hp
        exact hp.trans (List.prefix_append u v)
    have hpref_iff : L.isPrefixOf (u ++ v) = L.isPrefixOf u := by
      cases hb : L.isPrefixOf u
      · cases hb2 : L.isPrefixOf (u ++ v)
        · rfl
        · exfalso
          have hh := himp.mp (List.isPrefixOf_iff_prefix.mp hb2)
          have hb' := List.isPrefixOf_iff_prefix.mpr hh
          rw [hb] at hb'
          cases hb'
      · cases hb2 : L.isPrefixOf (u ++ v)
        · exfalso
          have hh := himp.mpr (List.isPrefixOf_iff_prefix.mp hb)
          have hb' := List.isPrefixOf_iff_prefix.mpr hh
          rw [hb2] at hb'
          cases hb'
        · rfl
    have hdrop : (u ++ v).drop L.length = u.drop L.length ++ v :=
      List.drop_append_of_le_length h4
    have hnsh : nonSpaceHead (u.drop L.length ++ v) = true := by
      have hdl : (u.drop L.length).length = u.length - L.length :=
        List.length_drop _ _
      rcases hd : u.drop L.length with _ | ⟨d, ds⟩
      · exfalso
        rw [hd] at hdl
        simp at hdl
        omega
      · have hdm : d ∈ u := by
          have hmem : d ∈ u.drop L.length := by
            rw [hd]
            exact List.mem_cons_self _ _
          exact List.drop_subset _ _ hmem
        simp [nonSpaceHead, hu d hdm]
    have hdec : decide (L.length + 1 ≤ u.length) = true := decide_eq_true hlen
    rw [hdrop, hpref_iff, hnsh, hdec]
  · have hdec : decide (L.length + 1 ≤ u.length) = false :=
      decide_eq_false hlen
    by_cases heq : u.length = L.length
    · have hdrop : (u ++ v).drop L.length = v := by
        rw [← heq]
        exact List.drop_left u v
      rw [hdrop, hv, hdec]
      simp only [Bool.and_false]
    · have hnp : L.isPrefixOf (u ++ v) = false := by
        by_cases hp : L <+: u ++ v
        · exfalso
          have htake := List.prefix_iff_eq_take.mp hp
          rw [List.take_append_eq_append_take,
            List.take_of_length_le (by omega)] at htake
          have hlenL : L.length =
              u.length + (v.take (L.length - u.length)).length := by
            rw [htake]
            simp
          rcases hvt : v.take (L.length - u.length) with _ | ⟨e, es⟩
          · rw [hvt] at hlenL
            simp at hlenL
            omega
          · have htp : (e :: es) <+: v := by
              rw [← hvt]
              exact List.take_prefix _ _
            obtain ⟨w, hw⟩ := htp
            have heL : e ∈ L := by
              rw [htake, hvt]
              exact List.mem_append_right _ (List.mem_cons_self _ _)
            have hnspe := hLn e heL
            rw [← hw] at hv
            simp [nonSpaceHead, hnspe] at hv
        · cases hb : L.isPrefixOf (u ++ v)
          · rfl
          · exact absurd (List.isPrefixOf_iff_prefix.mp hb) hp
      rw [hnp, hdec]
      simp only [Bool.false_and, Bool.and_false]

/-- Unfolding equation of `stripUrlRun` at a cons cell. -/
theorem stripUrlRun_cons (c : Char) (cs : List Char) :
    stripUrlRun (c :: cs) =
      if urlRunHead (c :: cs) then [] else c :: stripUrlRun cs := rfl

/-- The URL substitution on one all-non-space block followed by a
continuation that does not start with a non-space character: the block
is replaced by its `stripUrlRun` and scanning continues on the
continuation. -/
theorem subUrls_run : ∀ (u v : List Char), (∀ c ∈ u, nsp c = true) →
    nonSpaceHead v = false → subUrls (u ++ v) = stripUrlRun u ++ subUrls v
  | [], v, _, _ => by
    simp [stripUrlRun]
  | c :: u', v, hu, hv => by
    have hc1 := lit_cond_split "http".data (c :: u') v (by decide) hu hv
    have hc2 := lit_cond_split "www".data (c :: u') v (by decide) hu hv
    have hL4 : ("http".data : List Char).length = 4 := rfl
    have hL3 : ("www".data : List Char).length = 3 := rfl
    have h45 : (4 : Nat) + 1 = 5 := rfl
    have h34 : (3 : Nat) + 1 = 4 := rfl
    rw [hL4, h45] at hc1
    rw [hL3, h34] at hc2
    rw [List.cons_append] at hc1
    rw [List.cons_append] at hc2
    rw [List.cons_append, subUrls_cons, hc1, hc2, stripUrlRun_cons]
    by_cases hA : ("http".data.isPrefixOf (c :: u') &&
        decide (5 ≤ (c :: u').length)) = true
    · rw [if_pos hA]
      have hurl : urlRunHead (c :: u') = true := by
        rw [urlRunHead, hA]
        rfl
      rw [if_pos hurl, List.nil_append]
      have hlen : 4 ≤ (c :: u').length := by
        have := (Bool.and_eq_true _ _).mp hA
        have h5 := of_decide_eq_true this.2
        omega
      have hdrop : (c :: (u' ++ v)).drop 4 = (c :: u').drop 4 ++ v := by
        rw [← List.cons_append]
        exact List.drop_append_of_le_length hlen
      rw [hdrop, List.dropWhile_append_of_pos ?_,
        (takeWhile_nsp_of_wsHead v hv).2]
      intro a ha
      exact hu a (List.drop_subset _ _ ha)
    · rw [if_neg (by simpa using hA)]
      by_cases hB : ("www".data.isPrefixOf (c :: u') &&
          decide (4 ≤ (c :: u').length)) = true
      · rw [if_pos hB]
        have hurl : urlRunHead (c :: u') = true := by
          rw [urlRunHead, hB, Bool.or_true]
        rw [if_pos hurl, List.nil_append]
        have hlen : 3 ≤ (c :: u').length := by
          have := (Bool.and_eq_true _ _).mp hB
          have h4 := of_decide_eq_true this.2
          omega
        have hdrop : (c :: (u' ++ v)).drop 3 = (c :: u').drop 3 ++ v := by
          rw [← List.cons_append]
          exact List.drop_append_of_le_length hlen
        rw [hdrop, List.dropWhile_append_of_pos ?_,
          (takeWhile_nsp_of_wsHead v hv).2]
        intro a ha
        exact hu a (List.drop_subset _ _ ha)
      · rw [if_neg (by simpa using hB)]
        have hurl : urlRunHead (c :: u') = false := by
          rw [urlRunHead]
          rw [Bool.eq_false_iff]
          intro hor
          rcases Bool.or_eq_true _ _ |>.mp hor with h | h
          · exact absurd h hA
          · exact absurd h hB
        rw [if_neg (by simp [hurl])]
        rw [subUrls_run u' v (fun d hd => hu d (List.mem_cons_of_mem c hd)) hv]
        rfl
termination_by u _ _ _ => u.length

/-- The URL substitution is `stripUrlRun` applied to every maximal
non-space run. -/
theorem subUrls_eq_mapRuns : ∀ (t : List Char),
    subUrls t = mapRuns stripUrlRun t
  | [] => by
    rw [subUrls.eq_def, mapRuns.eq_def]
  | c :: cs => by
    by_cases hc : isSpaceChar c = true
    · have hhead : ∀ (L : List Char) (d : Char), L.isPrefixOf (c :: cs) = true →
          L = d :: L.tail → isSpaceChar d = false → False := by
        intro L d hb hL hd
        obtain ⟨w, hw⟩ := List.isPrefixOf_iff_prefix.mp hb
        rw [hL, List.cons_append] at hw
        have : d = c := by
          have := congrArg List.head? hw
          simpa using this
        rw [this] at hd
        rw [hd] at hc
        cases hc
      have h1 : "http".data.isPrefixOf (c :: cs) = false := by
        cases hb : "http".data.isPrefixOf (c :: cs)
        · rfl
        · exact (hhead "http".data 'h' hb rfl (by decide)).elim
      have h2 : "www".data.isPrefixOf (c :: cs) = false := by
        cases hb : "www".data.isPrefixOf (c :: cs)
        · rfl
        · exact (hhead "www".data 'w' hb rfl (by decide)).elim
      rw [subUrls_cons, mapRuns_cons, dif_pos hc,
        if_neg (by simp [h1]), if_neg (by simp [h2]),
        subUrls_eq_mapRuns cs]
    · have htw : ∀ d ∈ (c :: cs).takeWhile nsp, nsp d = true :=
        fun d hd => List.mem_takeWhile_imp hd
      have hdw : nonSpaceHead ((c :: cs).dropWhile nsp) = false := by
        rcases hd : (c :: cs).dropWhile nsp with _ | ⟨d, ds⟩
        · simp [nonSpaceHead]
        · have := dropWhile_head_not nsp _ d ds hd
          simp [nonSpaceHead, this]
      rw [mapRuns_cons, dif_neg hc]
      conv_lhs =>
        rw [show c :: cs = (c :: cs).takeWhile nsp ++ (c :: cs).dropWhile nsp
          from (List.takeWhile_append_dropWhile nsp (c :: cs)).symm]
      rw [subUrls_run _ _ htw hdw,
        subUrls_eq_mapRuns ((c :: cs).dropWhile nsp)]
termination_by t => t.length
decreasing_by
  · simp
  · have h1 : (c :: cs).dropWhile nsp = cs.dropWhile nsp := by
      rw [List.dropWhile_cons]
      simp [nsp, hc]
    have h1' : ((c :: cs).dropWhile nsp).length = (cs.dropWhile nsp).length := by
      rw [h1]
    have h2 : (cs.dropWhile nsp).length ≤ cs.length :=
      (List.dropWhile_sublist nsp).length_le
    simp only [List.length_cons]
    omega

/-- The email substitution is `gEmailRun` applied to every maximal
non-space run. -/
theorem subEmails_eq_mapRuns : ∀ (t : List Char),
    subEmails t = mapRuns gEmailRun t
  | [] => by
    rw [subEmails.eq_def, mapRuns.eq_def]
  | c :: cs => by
    rw [subEmails_cons, mapRuns_cons]
    by_cases hc : isSpaceChar c = true
    · rw [dif_pos hc, dif_pos hc, subEmails_eq_mapRuns cs]
    · rw [dif_neg hc, dif_neg hc,
        subEmails_eq_mapRuns ((c :: cs).dropWhile nsp)]
      by_cases hin : hasInteriorAt ((c :: cs).takeWhile nsp) = true
      · rw [if_pos hin]
        simp only [gEmailRun]
        rw [if_pos hin, List.nil_append]
      · rw [if_neg hin]
        simp only [gEmailRun]
        rw [if_neg hin]
termination_by t => t.length
decreasing_by
  · simp
  · have h1 : (c :: cs).dropWhile nsp = cs.dropWhile nsp := by
      rw [List.dropWhile_cons]
      simp [nsp, hc]
    have h1' : ((c :: cs).dropWhile nsp).length = (cs.dropWhile nsp).length := by
      rw [h1]
    have h2 : (cs.dropWhile nsp).length ≤ cs.length :=
      (List.dropWhile_sublist nsp).length_le
    simp only [List.length_cons]
    omega

/-- After dropping a maximal non-space prefix, the remainder does not
start with a non-space character. -/
theorem nonSpaceHead_dropWhile (t : List Char) :
    nonSpaceHead (t.dropWhile nsp) = false := by
  rcases hd : t.dropWhile nsp with _ | ⟨d, ds⟩
  · simp [nonSpaceHead]
  · have := dropWhile_head_not nsp t d ds hd
    simp [nonSpaceHead, this]

/-- `mapRuns` preserves "does not start with a non-space character". -/
theorem mapRuns_wsHead (g : List Char → List Char) (t : List Char)
    (h : nonSpaceHead t = false) : nonSpaceHead (mapRuns g t) = false := by
  cases t with
  | nil =>
    rw [mapRuns.eq_def]
    rfl
  | cons c cs =>
    have hc : isSpaceChar c = true := by
      have hn : nsp c = false := by simpa [nonSpaceHead] using h
      simpa [nsp] using hn
    rw [mapRuns_cons, dif_pos hc]
    simp [nonSpaceHead, nsp, hc]

/-- The non-space runs of `mapRuns g t` are the images under `g` of the
runs of `t`, with empty images dropped — provided `g` sends non-space
runs to non-space lists. -/
theorem runsOf_mapRuns (g : List Char → List Char)
    (hg : ∀ r, (∀ c ∈ r, nsp c = true) → ∀ c ∈ g r, nsp c = true) :
    ∀ (t : List Char), runsOf (mapRuns g t) =
      ((runsOf t).map g).filter (fun r => !r.isEmpty)
  | [] => by
    rw [mapRuns.eq_def]
    rfl
  | c :: cs => by
    by_cases hc : isSpaceChar c = true
    · rw [mapRuns_cons, dif_pos hc, runsOf,
        chunksP_cons_neg nsp _ c (by simp [nsp, hc])]
      have hrhs : runsOf (c :: cs) = runsOf cs := by
        rw [runsOf, chunksP_cons_neg nsp cs c (by simp [nsp, hc])]
        rfl
      rw [hrhs]
      exact runsOf_mapRuns g hg cs
    · have hnsp : nsp c = true := by simp [nsp, hc]
      rw [mapRuns_cons, dif_neg hc]
      have htw : ∀ d ∈ (c :: cs).takeWhile nsp, nsp d = true :=
        fun d hd => List.mem_takeWhile_imp hd
      have hdw : nonSpaceHead ((c :: cs).dropWhile nsp) = false :=
        nonSpaceHead_dropWhile _
      have hrt : runsOf (c :: cs) =
          ((c :: cs).takeWhile nsp) :: runsOf ((c :: cs).dropWhile nsp) := by
        rw [runsOf, chunksP_cons_pos nsp cs c hnsp]
        simp [runsOf, List.takeWhile_cons, List.dropWhile_cons, hnsp]
      rw [hrt, List.map_cons, List.filter_cons]
      have hmw : nonSpaceHead (mapRuns g ((c :: cs).dropWhile nsp)) = false :=
        mapRuns_wsHead g _ hdw
      by_cases hge : g ((c :: cs).takeWhile nsp) = []
      · rw [hge, List.nil_append,
          runsOf_mapRuns g hg ((c :: cs).dropWhile nsp)]
        simp
      · have hgall : ∀ d ∈ g ((c :: cs).takeWhile nsp), nsp d = true :=
          hg _ htw
        rw [runsOf_append _ _ hge hgall hmw,
          runsOf_mapRuns g hg ((c :: cs).dropWhile nsp)]
        have hie : (!(g ((c :: cs).takeWhile nsp)).isEmpty) = true := by
          rcases hx : g ((c :: cs).takeWhile nsp) with _ | ⟨y, ys⟩
          · exact absurd hx hge
          · rfl
        rw [if_pos hie]
termination_by t => t.length
decreasing_by
  · simp
  · have h1 : (c :: cs).dropWhile nsp = cs.dropWhile nsp := by
      rw [List.dropWhile_cons]
      simp [nsp, hc]
    have h1' : ((c :: cs).dropWhile nsp).length = (cs.dropWhile nsp).length := by
      rw [h1]
    have h2 : (cs.dropWhile nsp).length ≤ cs.length :=
      (List.dropWhile_sublist nsp).length_le
    simp only [List.length_cons]
    omega
  · have h1 : (c :: cs).dropWhile nsp = cs.dropWhile nsp := by
      rw [List.dropWhile_cons]
      simp [nsp, hc]
    have h1' : ((c :: cs).dropWhile nsp).length = (cs.dropWhile nsp).length := by
      rw [h1]
    have h2 : (cs.dropWhile nsp).length ≤ cs.length :=
      (List.dropWhile_sublist nsp).length_le
    simp only [List.length_cons]
    omega

/-- `joinRuns [r] = r`. -/
theorem joinRuns_single (r : List Char) : joinRuns [r] = r := rfl

/-- Recovering the runs of a `joinRuns` rebuild: single-space joins of
non-empty all-non-space runs split back into exactly those runs. -/
theorem runsOf_joinRuns : ∀ (rs : List (List Char)),
    (∀ r ∈ rs, r ≠ [] ∧ ∀ c ∈ r, nsp c = true) → runsOf (joinRuns rs) = rs
  | [], _ => rfl
  | [r], h => by
    rw [joinRuns_single]
    have hr := h r (List.mem_cons_self _ _)
    exact runsOf_single r hr.1 hr.2
  | r :: x :: xs, h => by
    rw [joinRuns_cons_cons]
    have hr := h r (List.mem_cons_self _ _)
    rw [runsOf_append r (' ' :: joinRuns (x :: xs)) hr.1 hr.2
      (by simp [nonSpaceHead, nsp, isSpaceChar])]
    congr 1
    have hrec := runsOf_joinRuns (x :: xs)
      (fun s hs => h s (List.mem_cons_of_mem r hs))
    rw [runsOf, chunksP_cons_neg nsp _ ' ' (by decide)]
    exact hrec

/-- Characters of a `joinRuns` rebuild are the joining spaces or
characters of the runs. -/
theorem joinRuns_mem : ∀ (rs : List (List Char)) (c : Char),
    c ∈ joinRuns rs → c = ' ' ∨ ∃ r ∈ rs, c ∈ r
  | [], c, h => by simp [joinRuns] at h
  | [r], c, h => by
    right
    exact ⟨r, List.mem_cons_self _ _, h⟩
  | r :: x :: xs, c, h => by
    rw [joinRuns_cons_cons] at h
    rcases List.mem_append.mp h with h1 | h1
    · right
      exact ⟨r, List.mem_cons_self _ _, h1⟩
    · rcases List.mem_cons.mp h1 with rfl | h2
      · left
        rfl
      · rcases joinRuns_mem (x :: xs) c h2 with h3 | ⟨s, hs, hcs⟩
        · left
          exact h3
        · right
          exact ⟨s, List.mem_cons_of_mem r hs, hcs⟩

/-- `stripUrlRun` keeps a prefix of the run. -/
theorem stripUrlRun_isPre : ∀ (r : List Char), stripUrlRun r <+: r
  | [] => List.nil_prefix
  | c :: cs => by
    rw [stripUrlRun_cons]
    by_cases h : urlRunHead (c :: cs) = true
    · rw [if_pos h]
      exact List.nil_prefix
    · rw [if_neg h]
      obtain ⟨w, hw⟩ := stripUrlRun_isPre cs
      exact ⟨w, by rw [List.cons_append, hw]⟩

/-- A URL-match test at the head only becomes easier on an extension of
the run. -/
theorem urlRunHead_mono (u w : List Char) (h : u <+: w)
    (hu : urlRunHead u = true) : urlRunHead w = true := by
  have hlen : u.length ≤ w.length := h.length_le
  rw [urlRunHead] at hu ⊢
  rcases (Bool.or_eq_true _ _).mp hu with h1 | h1
  · have hp := (Bool.and_eq_true _ _).mp h1
    have hpre := List.isPrefixOf_iff_prefix.mp hp.1
    have hl := of_decide_eq_true hp.2
    have : "http".data.isPrefixOf w = true :=
      List.isPrefixOf_iff_prefix.mpr (hpre.trans h)
    rw [this, decide_eq_true (by omega : 5 ≤ w.length)]
    rfl
  · have hp := (Bool.and_eq_true _ _).mp h1
    have hpre := List.isPrefixOf_iff_prefix.mp hp.1
    have hl := of_decide_eq_true hp.2
    have : "www".data.isPrefixOf w = true :=
      List.isPrefixOf_iff_prefix.mpr (hpre.trans h)
    rw [this, decide_eq_true (by omega : 4 ≤ w.length)]
    simp

/-- `stripUrlRun` is idempotent: the kept prefix contains no URL-match
position. -/
theorem stripUrlRun_idem : ∀ (r : List Char),
    stripUrlRun (stripUrlRun r) = stripUrlRun r
  | [] => rfl
  | c :: cs => by
    rw [stripUrlRun_cons]
    by_cases h : urlRunHead (c :: cs) = true
    · rw [if_pos h]
      rfl
    · rw [if_neg h, stripUrlRun_cons]
      have hpre : (c :: stripUrlRun cs) <+: (c :: cs) := by
        obtain ⟨w, hw⟩ := stripUrlRun_isPre cs
        exact ⟨w, by rw [List.cons_append, hw]⟩
      have h2 : urlRunHead (c :: stripUrlRun cs) = false := by
        cases hb : urlRunHead (c :: stripUrlRun cs)
        · rfl
        · exact absurd (urlRunHead_mono _ _ hpre hb) h
      rw [if_neg (by simp [h2]), stripUrlRun_idem cs]

/-- Fusing the two per-run passes: filtering empties between the two
maps is the same as filtering once after the composite map, provided
the second map sends `[]` to `[]`. -/
theorem filter_map_fuse (f g : List Char → List Char) (hg : g [] = []) :
    ∀ (rs : List (List Char)),
      (((rs.map f).filter (fun r => !r.isEmpty)).map g).filter
          (fun r => !r.isEmpty) =
        (rs.map (fun r => g (f r))).filter (fun r => !r.isEmpty) := by
  intro rs
  induction rs with
  | nil => rfl
  | cons r rs ih =>
    rw [List.map_cons, List.filter_cons, List.map_cons, List.filter_cons]
    rcases hf : f r with _ | ⟨y, ys⟩
    · simp [hg, ih]
    · rw [if_pos (by simp : (!(y :: ys : List Char).isEmpty) = true),
        List.map_cons, List.filter_cons]
      by_cases hgf : (!(g (y :: ys)).isEmpty) = true
      · rw [if_pos hgf, if_pos hgf, ih]
      · rw [if_neg hgf, if_neg hgf]
        exact ih

/-- ASCII lower-casing is idempotent. -/
theorem toLower_toLower (c : Char) :
    (Char.toLower c).toLower = Char.toLower c := by
  by_cases h : c.toNat ≥ 65 ∧ c.toNat ≤ 90
  · have hvalid : (c.toNat + 32).isValidChar := Or.inl (by omega)
    have hval : (Char.ofNat (c.toNat + 32)).toNat = c.toNat + 32 := by
      rw [Char.ofNat, dif_pos hvalid]
      rfl
    have h1 : c.toLower = Char.ofNat (c.toNat + 32) := by
      unfold Char.toLower
      rw [if_pos h]
    have h2 : (Char.ofNat (c.toNat + 32)).toLower = Char.ofNat (c.toNat + 32) := by
      unfold Char.toLower
      rw [if_neg (by rw [hval]; omega)]
    rw [h1, h2]
  · have h1 : c.toLower = c := by
      unfold Char.toLower
      rw [if_neg h]
    rw [h1]
    exact h1

/-- The combined effect of the URL and email substitutions on one
maximal non-space run. -/
def procRun (r : List Char) : List Char := gEmailRun (stripUrlRun r)

/-- Master characterization of the normalization pipeline after
lower-casing: strip ∘ collapse ∘ subEmails ∘ subUrls rebuilds the text
from its processed non-space runs (empty results dropped) joined by
single spaces. -/
theorem pipeline_eq_joinRuns (t : List Char) :
    stripWs (collapseWs (subEmails (subUrls t))) =
      joinRuns (((runsOf t).map procRun).filter (fun r => !r.isEmpty)) := by
  have hgU : ∀ r, (∀ c ∈ r, nsp c = true) → ∀ c ∈ stripUrlRun r, nsp c = true :=
    fun r hr c hc => hr c ((stripUrlRun_isPre r).sublist.subset hc)
  have hgE : ∀ r, (∀ c ∈ r, nsp c = true) → ∀ c ∈ gEmailRun r, nsp c = true := by
    intro r hr c hc
    rw [gEmailRun] at hc
    by_cases hin : hasInteriorAt r = true
    · rw [if_pos hin] at hc
      cases hc
    · rw [if_neg hin] at hc
      exact hr c hc
  have hgnil : gEmailRun [] = [] := rfl
  rw [subUrls_eq_mapRuns, subEmails_eq_mapRuns, stripCollapse]
  have h1 : runsOf (mapRuns gEmailRun (mapRuns stripUrlRun t)) =
      ((runsOf (mapRuns stripUrlRun t)).map gEmailRun).filter
        (fun r => !r.isEmpty) := runsOf_mapRuns gEmailRun hgE _
  have h2 : runsOf (mapRuns stripUrlRun t) =
      ((runsOf t).map stripUrlRun).filter (fun r => !r.isEmpty) :=
    runsOf_mapRuns stripUrlRun hgU t
  rw [h1, h2, filter_map_fuse stripUrlRun gEmailRun hgnil]
  rfl

/-- `!r.isEmpty = true` means `r` is non-empty. -/
theorem ne_nil_of_not_isEmpty (r : List Char) (h : (!r.isEmpty) = true) :
    r ≠ [] := by
  cases r with
  | nil => cases h
  | cons c cs => simp

/-- The processed runs of the pipeline output: non-empty, all
non-space, drawn from the input text, and fixed points of `procRun`. -/
theorem processed_runs_facts (t : List Char) (r : List Char)
    (hr : r ∈ ((runsOf t).map procRun).filter (fun r => !r.isEmpty)) :
    r ≠ [] ∧ (∀ c ∈ r, nsp c = true) ∧ (∀ c ∈ r, c ∈ t) ∧ procRun r = r := by
  have hmf := List.mem_filter.mp hr
  obtain ⟨r0, hr0, hpr⟩ := List.mem_map.mp hmf.1
  have hne : r ≠ [] := ne_nil_of_not_isEmpty r hmf.2
  have hfacts := chunksP_mem nsp t r0 hr0
  have hinr : hasInteriorAt (stripUrlRun r0) = false := by
    cases hb : hasInteriorAt (stripUrlRun r0)
    · rfl
    · exfalso
      apply hne
      rw [← hpr, procRun, gEmailRun, if_pos hb]
  have hreq : r = stripUrlRun r0 := by
    rw [← hpr, procRun, gEmailRun, if_neg (by simp [hinr])]
  have hsubset : ∀ c ∈ r, c ∈ r0 := by
    intro c hc
    rw [hreq] at hc
    exact (stripUrlRun_isPre r0).sublist.subset hc
  refine ⟨hne, ?_, ?_, ?_⟩
  · intro c hc
    exact hfacts.2.1 c (hsubset c hc)
  · intro c hc
    exact hfacts.2.2 c (hsubset c hc)
  · rw [procRun, hreq, stripUrlRun_idem, ← hreq]
    rw [hreq, gEmailRun, if_neg (by simp [hinr]), ← hreq]

/-- C9: the text normalizer `preprocess_text` is idempotent (and, being
a total function built from total substitutions, never raises). -/
theorem C9_preprocess_idempotent (s : String) :
    preprocess_text (preprocess_text s) = preprocess_text s := by
  unfold preprocess_text
  congr 1
  show stripWs (collapseWs (subEmails (subUrls
      ((stripWs (collapseWs (subEmails (subUrls (s.data.map Char.toLower))))).map
        Char.toLower)))) =
    stripWs (collapseWs (subEmails (subUrls (s.data.map Char.toLower))))
  rw [pipeline_eq_joinRuns (s.data.map Char.toLower)]
  have hRS := processed_runs_facts (s.data.map Char.toLower)
  have hlow : (joinRuns (((runsOf (s.data.map Char.toLower)).map procRun).filter
      (fun r => !r.isEmpty))).map Char.toLower =
      joinRuns (((runsOf (s.data.map Char.toLower)).map procRun).filter
        (fun r => !r.isEmpty)) := by
    have hfix : ∀ c ∈ joinRuns (((runsOf (s.data.map Char.toLower)).map
        procRun).filter (fun r => !r.isEmpty)), Char.toLower c = c := by
      intro c hc
      rcases joinRuns_mem _ c hc with rfl | ⟨r, hrm, hcr⟩
      · rfl
      · have hct := (hRS r hrm).2.2.1 c hcr
        obtain ⟨d, _, rfl⟩ := List.mem_map.mp hct
        exact toLower_toLower d
    rw [List.map_congr_left hfix, List.map_id']
  rw [hlow, pipeline_eq_joinRuns]
  have hruns : runsOf (joinRuns (((runsOf (s.data.map Char.toLower)).map
      procRun).filter (fun r => !r.isEmpty))) =
      ((runsOf (s.data.map Char.toLower)).map procRun).filter
        (fun r => !r.isEmpty) := by
    apply runsOf_joinRuns
    intro r hrm
    exact ⟨(hRS r hrm).1, (hRS r hrm).2.1⟩
  rw [hruns]
  have hmapfix : (((runsOf (s.data.map Char.toLower)).map procRun).filter
      (fun r => !r.isEmpty)).map procRun =
      ((runsOf (s.data.map Char.toLower)).map procRun).filter
        (fun r => !r.isEmpty) := by
    have := List.map_congr_left (fun r hrm => (hRS r hrm).2.2.2)
    rw [this, List.map_id']
  rw [hmapfix]
  rw [List.filter_eq_self.mpr ?_]
  intro r hrm
  have := (hRS r hrm).1
  cases hr : r with
  | nil => exact absurd hr this
  | cons c cs => simp
